import Mathlib

/-!
# Verification of `tools/scrape/github.py` (vim-awesome scraper)

Shallow embedding of the GitHub scraper module.  Network and database
interactions are modelled by passing the fetched data (file contents,
directory listings, search pages, stored records) explicitly as inputs;
dates are represented as integer epoch seconds (the code normalises all
dates to epoch seconds via `util.to_timestamp`, so `dateutil` parsing and
`to_timestamp` are identities in this model).  Fallible code paths
(Python exceptions such as `TypeError` from `any(None)`) are modelled with
`Except`.
-/

namespace GithubScraper

/-! ## Pattern extractor

The module compiles (Python 2 `re`, byte strings, no `re.UNICODE`):

* `_BUNDLE_PLUGIN_REGEX_TEMPLATE = r'^[^\S\n]*%s[^\S\n]*[\x27"]([^\x27"\n\r]+)[\x27"]'`
  instantiated with keyword `Bundle` (Vundle family) and with the
  alternation `(?:NeoBundle|NeoBundleFetch|NeoBundleLazy)` (NeoBundle
  family), both with `re.MULTILINE`, used through `.findall`.
* `_BUNDLE_OWNER_REPO_REGEX = r'(?:([^:\x27"/]+)/)?([^\x27"\n\r/]+?)(?:\.git)?$'`
  used through `.search`.

Because every character class excludes `\n` and `^` only matches at line
starts under `MULTILINE`, `findall` produces at most one match per line,
anchored at the start of the line; so the extraction is embedded as a
per-line matcher mapped over the lines of the file.  The alternation is
tried left to right (Python leftmost preference), which the keyword list
reproduces.  Greedy/lazy backtracking of the concrete patterns is resolved
as in the Python engine (see the comments on each function).
-/

/-- Python 2 `[^\S\n]` for byte strings: whitespace other than newline,
i.e. one of space, tab, carriage return, vertical tab, form feed. -/
def isPySpaceNoNl (c : Char) : Bool :=
  c == ' ' || c == '\t' || c == '\r' || c == '\x0b' || c == '\x0c'

/-- Character class `[^\x27"\n\r]` of the quoted-argument group. -/
def bundleArgChar (c : Char) : Bool :=
  !(c == '\'' || c == '"' || c == '\n' || c == '\r')

/-- Character class `[\x27"]`: a single or double quote. -/
def quoteChar (c : Char) : Bool := c == '\'' || c == '"'

/-- Character class `[^:\x27"/]` of the optional owner group. -/
def ownerClassOk (c : Char) : Bool :=
  !(c == ':' || c == '\'' || c == '"' || c == '/')

/-- Character class `[^\x27"\n\r/]` of the repo-name group. -/
def repoClassOk (c : Char) : Bool :=
  !(c == '\'' || c == '"' || c == '\n' || c == '\r' || c == '/')

/-- The part of the bundle-line regex after the directive keyword:
`[^\S\n]*[\x27"]([^\x27"\n\r]+)[\x27"]`.  The whitespace run is maximal
(no backtracking can help, since a quote is not whitespace), the group is
the maximal run of non-quote characters (its class excludes both quote
characters, so shortening it can never expose a quote), and it must be
non-empty and followed by a quote. -/
def matchAfterKeyword (rest : List Char) : Option (List Char) :=
  match rest.dropWhile isPySpaceNoNl with
  | [] => none
  | q :: rest2 =>
    if quoteChar q then
      let grp := rest2.takeWhile bundleArgChar
      match rest2.drop grp.length with
      | [] => none
      | q2 :: _ => if quoteChar q2 && !grp.isEmpty then some grp else none
    else none

/-- One line of `findall` for `^[^\S\n]*(?:kw₁|kw₂|…)[^\S\n]*[\x27"](grp)[\x27"]`
under `re.MULTILINE`: the match must start at the line start; the leading
whitespace run is maximal (keywords start with a non-whitespace letter);
the alternation is tried left to right, and on failure of the continuation
the next alternative is tried (Python backtracking). -/
def matchBundleLine (keywords : List String) (line : List Char) : Option (List Char) :=
  keywords.findSome? fun kw =>
    if kw.data.isPrefixOf (line.dropWhile isPySpaceNoNl) then
      matchAfterKeyword ((line.dropWhile isPySpaceNoNl).drop kw.data.length)
    else none

/-- Split a character list at `'\n'` (how `re.MULTILINE` partitions the
subject into lines; a trailing newline yields a final empty line, which
never matches). -/
def splitLines : List Char → List (List Char)
  | [] => [[]]
  | c :: rest =>
    if c = '\n' then [] :: splitLines rest
    else
      match splitLines rest with
      | [] => [[c]]
      | l :: ls => (c :: l) :: ls

/-- `bundle_plugin_regex.findall(file_contents)`: the group-1 strings of
all matches, in order. -/
def findallBundles (keywords : List String) (fileContents : String) : List (List Char) :=
  (splitLines fileContents.data).filterMap (matchBundleLine keywords)

/-- The lazy repo group followed by `(?:\.git)?$` of
`_BUNDLE_OWNER_REPO_REGEX`, starting after the optional owner part.
`acc` is the reversed group matched so far.  Lazily (`+?`) the shortest
non-empty extension wins; for a given group the greedy `(?:\.git)?` tries
to consume a literal `.git` before requiring the end of the subject.  The
subject (a bundle argument) never contains `\n`, so `$` is end-of-string. -/
def repoGroupFrom (acc rest : List Char) : Option (List Char) :=
  if acc ≠ [] ∧ (rest = '.' :: 'g' :: 'i' :: 't' :: [] ∨ rest = []) then
    some acc.reverse
  else
    match rest with
    | [] => none
    | c :: rest' => if repoClassOk c then repoGroupFrom (c :: acc) rest' else none

/-- Attempt of `(?:([^:\x27"/]+)/)?([^\x27"\n\r/]+?)(?:\.git)?$` at one
position.  The optional owner group, being greedy, first takes the maximal
run of owner-class characters followed by `/` (shorter runs cannot be
followed by `/`, as the class excludes `/`); if the remainder then fails,
the engine retries with the optional group empty at the same position. -/
def ownerRepoMatchAt (cs : List Char) : Option (Option (List Char) × List Char) :=
  let noOwner : Option (Option (List Char) × List Char) :=
    (repoGroupFrom [] cs).map fun r => (none, r)
  let run := cs.takeWhile ownerClassOk
  let rest := cs.drop run.length
  if run ≠ [] ∧ rest.head? = some '/' then
    match repoGroupFrom [] rest.tail with
    | some r => some (some run, r)
    | none => noOwner
  else noOwner

/-- `_BUNDLE_OWNER_REPO_REGEX.search(bundle)`: leftmost position whose
attempt succeeds. -/
def searchOwnerRepo : List Char → Option (Option (List Char) × List Char)
  | [] => ownerRepoMatchAt []
  | c :: rest =>
    match ownerRepoMatchAt (c :: rest) with
    | some r => some r
    | none => searchOwnerRepo rest

/-- `_extract_bundles_with_regex(file_contents, regex)`: all `findall`
groups, each parsed by the owner/repo regex; a missing owner defaults to
`vim-scripts`; unparsable groups are warned about and skipped. -/
def extractBundlesWithRegex (fileContents : String) (keywords : List String) :
    List (String × String) :=
  (findallBundles keywords fileContents).filterMap fun bundle =>
    match searchOwnerRepo bundle with
    | some (ownerOpt, repo) =>
      some ((ownerOpt.getD "vim-scripts".data).asString, repo.asString)
    | none => none

/-- Keyword of `_VUNDLE_PLUGIN_REGEX`. -/
def vundleKeywords : List String := ["Bundle"]

/-- Alternation of `_NEOBUNDLE_PLUGIN_REGEX`, in source order. -/
def neoBundleKeywords : List String := ["NeoBundle", "NeoBundleFetch", "NeoBundleLazy"]

/-- `_extract_bundle_repos_from_file(file_contents)`:
`(Vundle repos, NeoBundle repos)`. -/
def extractBundleReposFromFile (fileContents : String) :
    List (String × String) × List (String × String) :=
  (extractBundlesWithRegex fileContents vundleKeywords,
   extractBundlesWithRegex fileContents neoBundleKeywords)

/-! ## Directory walker

`_extract_bundle_repos_from_dir(dir_data, depth)` walks a GitHub
directory listing.  A listing entry is either a file or a directory; the
code fetches file contents (base64, then decoded) and subdirectory
listings through `get_api_page(entry['url'])`, which we model by storing
the decoded contents / sub-listing inside the entry itself.  The walker's
Python return value is either a pair of lists or `None` (the bare
`return` at the depth limit); calling `any(...)` on `None` raises
`TypeError`, which we model with `Except String`.  Each invocation's own
`get_api_page` calls are recorded as `FetchEvent`s (this level only). -/

/-- An element of a GitHub contents listing, with the data its `url`
would fetch stored inline (file: decoded contents; dir: sub-listing). -/
inductive Entry where
  | file (name : String) (contents : String)
  | dir (name : String) (listing : List Entry)

/-- Pair of (Vundle repos, NeoBundle repos). -/
abbrev BundlesPair := List (String × String) × List (String × String)

/-- Python truthiness of `any((list1, list2))`. -/
def anyPair (p : BundlesPair) : Bool := !p.1.isEmpty || !p.2.isEmpty

/-- Python substring test `sub in hay` on lists of characters. -/
def isSubList (needle : List Char) : List Char → Bool
  | [] => needle.isEmpty
  | c :: t => needle.isPrefixOf (c :: t) || isSubList needle t

/-- Python `sub in hay` on strings. -/
def containsSub (hay sub : String) : Bool := isSubList sub.data hay.data

/-- Python 2 `str.lower()`: lowercase the ASCII letters
(`Char.toLower` is exactly the ASCII case map). -/
def strLower (s : String) : String := ⟨s.data.map Char.toLower⟩

/-- `_VIMRC_FILENAMES`. -/
def vimrcFilenames : List String :=
  ["vimrc", "bundle", "vundle.vim", "vundles.vim", "vim.config", "plugins.vim"]

/-- `_VIM_DIRECTORIES`. -/
def vimDirectories : List String := ["vim", "config", "home"]

/-- A `get_api_page` call issued directly by one walker invocation:
fetching a candidate file's contents, or a candidate subdirectory's
listing. -/
inductive FetchEvent where
  | file (name : String) (contents : String)
  | dir (name : String)
deriving DecidableEq

/-- The two file guards of the file loop: not skipped for containing
`gvimrc`, and the lowercased name contains one of the `_VIMRC_FILENAMES`
substrings. -/
def fileIsCandidate (name : String) : Bool :=
  !containsSub (strLower name) "gvimrc" &&
    vimrcFilenames.any fun f => containsSub (strLower name) f

/-- The directory guard of the directory loop: the lowercased name
contains one of the `_VIM_DIRECTORIES` substrings. -/
def dirIsCandidate (name : String) : Bool :=
  vimDirectories.any fun f => containsSub (strLower name) f

/-- The file loop of `_extract_bundle_repos_from_dir`: iterate the `file`
entries in order; skip names containing `gvimrc`; skip names containing no
`_VIMRC_FILENAMES` substring; fetch the rest and return the first whose
extracted bundles are non-empty (`any(bundles_tuple)`).  Also returns the
fetch events performed. -/
def filesLoopT : List Entry → Option BundlesPair × List FetchEvent
  | [] => (none, [])
  | .dir _ _ :: rest => filesLoopT rest
  | .file name contents :: rest =>
    if fileIsCandidate name then
      let bundlesTuple := extractBundleReposFromFile contents
      if anyPair bundlesTuple then (some bundlesTuple, [FetchEvent.file name contents])
      else ((filesLoopT rest).1, FetchEvent.file name contents :: (filesLoopT rest).2)
    else filesLoopT rest

/-- The directory loop of `_extract_bundle_repos_from_dir`: iterate the
`dir` entries whose name contains a `_VIM_DIRECTORIES` substring, fetch
each sub-listing and recurse (`recurse` is the walker at `depth + 1`).
`any(bundles_tuple)` on a recursive result of `None` raises `TypeError`;
nested exceptions propagate.  When the loop completes, the walker returns
`([], [])`. -/
def dirsLoopT (recurse : List Entry → Except String (Option BundlesPair)) :
    List Entry → Except String (Option BundlesPair) × List FetchEvent
  | [] => (.ok (some ([], [])), [])
  | .file _ _ :: rest => dirsLoopT recurse rest
  | .dir name listing :: rest =>
    if !dirIsCandidate name then dirsLoopT recurse rest
    else
      match recurse listing with
      | .error msg => (.error msg, [FetchEvent.dir name])
      | .ok none => (.error "TypeError", [FetchEvent.dir name])
      | .ok (some bundlesTuple) =>
        if anyPair bundlesTuple then (.ok (some bundlesTuple), [FetchEvent.dir name])
        else ((dirsLoopT recurse rest).1, FetchEvent.dir name :: (dirsLoopT recurse rest).2)

/-- `_extract_bundle_repos_from_dir` with the remaining recursion budget
`fuel = 3 - depth` made explicit (the guard `depth >= 3` is exactly
`fuel = 0`, and the recursive call at `depth + 1` has `fuel - 1`): the
depth-limit branch is a bare `return`, i.e. `None` (`.ok none`); then the
file loop, then the directory loop.  The second component lists the
`get_api_page` calls made by this invocation (not by nested ones). -/
def walkAuxT : Nat → List Entry → Except String (Option BundlesPair) × List FetchEvent
  | 0, _ => (.ok none, [])
  | fuel + 1, dirData =>
    match filesLoopT dirData with
    | (some bundlesTuple, evs) => (.ok (some bundlesTuple), evs)
    | (none, evs) =>
      let d := dirsLoopT (fun listing => (walkAuxT fuel listing).1) dirData
      (d.1, evs ++ d.2)

/-- `_extract_bundle_repos_from_dir(dir_data, depth)`.  `.ok none` is
Python's `None` (bare `return` at `depth >= 3`), `.ok (some p)` a returned
pair, `.error` a raised exception. -/
def extractBundleReposFromDir (dirData : List Entry) (depth : Nat) :
    Except String (Option BundlesPair) :=
  (walkAuxT (3 - depth) dirData).1

/-- `_extract_pathogen_repos(repo_contents)`: unimplemented in the source
(`return []`). -/
def extractPathogenRepos (_ : List Entry) : List (String × String) := []

/-! ## Rate limiter and date reconciliation -/

/-- The two rate-limit response headers. -/
structure RLHeaders where
  remaining : String
  reset : Int
deriving DecidableEq

/-- `maybe_wait_until_api_limit_resets(response_headers)`, returning the
number of seconds slept (0 = returned immediately).  The code computes
`(reset_date - now).seconds + 1`: `timedelta.seconds` is the normalised
seconds field, i.e. the total difference modulo 86400 (floor convention),
not the total difference.  `now` is the current time in epoch seconds
(sub-second parts of `datetime.now()` are not modelled). -/
def maybeWaitSeconds (headers : RLHeaders) (now : Int) : Int :=
  if headers.remaining = "0" then (headers.reset - now).emod 86400 + 1 else 0

/-- One commit of the `repos/:owner/:repo/commits` payload: its
`commit.author.date`, as epoch seconds. -/
structure Commit where
  authorDate : Int
deriving DecidableEq

/-- The commits payload: a JSON list (up to 100 commits, most recent
first) or some non-list body (e.g. an error object); a falsy payload
behaves like the non-list case in the code's guard. -/
inductive CommitsData where
  | notList
  | list (commits : List Commit)
deriving DecidableEq

/-- The date logic of `fetch_plugin`: given the repository's reported
`created_at` and `updated_at` and the commits payload, the
`(created_date, updated_date)` that the plugin record stores.  With a
non-empty commits list, `updated` is `commits_data[0]`'s author date and
`created` is `min(repo created, commits_data[-1] author date)`; otherwise
both fall back to the repository-reported dates. -/
def fetchPluginDates (repoCreatedAt repoUpdatedAt : Int) (commitsData : CommitsData) :
    Int × Int :=
  match commitsData with
  | .list (c :: cs) => (min repoCreatedAt (List.getLastD cs c).authorDate, c.authorDate)
  | .list [] => (repoCreatedAt, repoUpdatedAt)
  | .notList => (repoCreatedAt, repoUpdatedAt)

/-! ## Dotfiles discoverer (`_get_plugin_repos_from_dotfiles`,
`scrape_dotfiles_repos`)

The GitHub API and the database (`db.github_repos`, outside this module)
are modelled as an environment of pure functions; database writes are
recorded as `PersistCall`s.  Dates are epoch seconds throughout
(`dateutil` parsing and `util.to_timestamp` are identities in this
model). -/

/-- One item of a `search/repositories` result page: the fields the code
reads. -/
structure SearchItem where
  full_name : String
  pushed_at : Int
deriving DecidableEq

/-- The dotfiles-repo record built by `_get_plugin_repos_from_dotfiles`:
the seven keys it sets, plus the remaining keys of the previously stored
record, which the shallow merge `dict(db_repo or {}, **{...})` preserves
unchanged (all seven set keys override). -/
structure RepoDict where
  owner : String
  pushed_at : Option Int
  repo_name : String
  search_keyword : String
  vundle_repos : List String
  neobundle_repos : List String
  pathogen_repos : List String
  otherFields : List (String × String)
deriving DecidableEq

/-- Body of a `repos/:owner_repo/contents` response: a JSON list of
entries, or anything else (e.g. an error object). -/
inductive ContentsBody where
  | list (entries : List Entry)
  | nonList

/-- Whether the body is a JSON list (`isinstance(contents_data, list)`). -/
def ContentsBody.isList : ContentsBody → Bool
  | .list _ => true
  | .nonList => false

/-- A database write performed by the discoverer. -/
inductive PersistCall where
  | logScrape (r : RepoDict)
  | upsert (r : RepoDict)
deriving DecidableEq

/-- The stats dict returned by `_get_plugin_repos_from_dotfiles`. -/
structure Stats where
  vundle_repos_count : Nat
  neobundle_repos_count : Nat
  pathogen_repos_count : Nat
deriving DecidableEq

/-- The `collections.Counter` accumulated by `scrape_dotfiles_repos`,
restricted to the three keys ever added. -/
structure Counter where
  vundle : Nat
  neobundle : Nat
  pathogen : Nat
deriving DecidableEq

/-- `scraped_counter.update(stats)`: `Counter.update(None)` is a no-op;
updating with a dict adds the counts. -/
def counterUpdate (c : Counter) : Option Stats → Counter
  | none => c
  | some s =>
    ⟨c.vundle + s.vundle_repos_count, c.neobundle + s.neobundle_repos_count,
     c.pathogen + s.pathogen_repos_count⟩

/-- One page of `search/repositories` as the code consumes it: the
`items` list and the rate-limit response headers. -/
structure SearchPage where
  items : List SearchItem
  headers : RLHeaders

/-- The search parameters built for one `search/repositories` call:
`q = '<keyword> in:name pushed:><cursor>'`, ascending by update time.
The `pushed:>` filter date is kept as epoch seconds. -/
structure SearchParams where
  keywordInName : String
  pushedAfter : Int
  sort : String
  order : String
deriving DecidableEq

/-- `search_params` for a keyword and cursor. -/
def searchParamsFor (repoName : String) (lastPushedDate : Int) : SearchParams :=
  ⟨repoName, lastPushedDate, "updated", "asc"⟩

/-- The external world of the discoverer: the dotfiles DB reads and the
GitHub API calls.  `now` is `datetime.now()` at the rate-limiter calls. -/
structure DotfilesEnv where
  getLatestWithKeyword : String → Option RepoDict
  search : SearchParams → SearchPage
  contents : String → Nat × ContentsBody
  getWithOwnerRepo : String → String → Option RepoDict
  now : Int

/-- `'/'.join(owner_repo_tuple)`. -/
def stringifyRepo (t : String × String) : String := t.1 ++ "/" ++ t.2

/-- `_get_plugin_repos_from_dotfiles(repo_data, search_keyword)`: fetch
the repo's root contents; on a 404 status or a non-list body, print
"contents not found" and return `None` with no extraction and no write.
Otherwise run the directory walker at depth 0 (unpacking its result
raises `TypeError` if it were `None`), build the merged record, persist
it (`log_scrape`, then `upsert_with_owner_repo`), and return the stats
dict.  `full_name.split('/')` must have exactly two parts, else the
unpacking raises `ValueError`. -/
def getPluginReposFromDotfiles (env : DotfilesEnv) (repoData : SearchItem)
    (searchKeyword : String) : Except String (Option Stats × List PersistCall) :=
  let ownerRepo := repoData.full_name
  let res := env.contents ownerRepo
  if res.1 = 404 || !res.2.isList then .ok (none, [])
  else
    match res.2 with
    | .nonList => .ok (none, [])
    | .list contentsData =>
      match extractBundleReposFromDir contentsData 0 with
      | .error msg => .error msg
      | .ok none => .error "TypeError"
      | .ok (some bundlesTuple) =>
        let vundleRepos := bundlesTuple.1
        let neobundleRepos := bundlesTuple.2
        let pathogenRepos := extractPathogenRepos contentsData
        match ownerRepo.splitOn "/" with
        | [owner, repoName] =>
          let dbRepo := env.getWithOwnerRepo owner repoName
          let repo : RepoDict :=
            ⟨owner, some repoData.pushed_at, repoName, searchKeyword,
             vundleRepos.map stringifyRepo, neobundleRepos.map stringifyRepo,
             pathogenRepos.map stringifyRepo,
             (dbRepo.map RepoDict.otherFields).getD []⟩
          .ok (some ⟨vundleRepos.length, neobundleRepos.length, pathogenRepos.length⟩,
               [.logScrape repo, .upsert repo])
        | _ => .error "ValueError"

/-- `_DOTFILE_REPO_NAMES`. -/
def dotfileRepoNames : List String :=
  ["dotfile", "vimrc", "vimfile", "vim-file", "vimconf", "vim-conf", "dotvim",
   "config-files", "vim-setting", "myvim"]

/-- `EARLIEST_PUSHED_DATE = datetime(2013, 1, 1)` as epoch seconds. -/
def EARLIEST_PUSHED_DATE : Int := 1356998400

/-- The cursor for a keyword's first search query:
`max(utcfromtimestamp(latest_repo['pushed_at']), EARLIEST_PUSHED_DATE)`
when a latest record exists and its `pushed_at` is truthy (present and
non-zero), else `EARLIEST_PUSHED_DATE`. -/
def firstLastPushedDate (latestRepo : Option RepoDict) : Int :=
  match latestRepo with
  | some repo =>
    match repo.pushed_at with
    | some t => if t ≠ 0 then max t EARLIEST_PUSHED_DATE else EARLIEST_PUSHED_DATE
    | none => EARLIEST_PUSHED_DATE
  | none => EARLIEST_PUSHED_DATE

/-- Running state of `scrape_dotfiles_repos`: `repos_scraped`,
`scraped_counter`, plus the observable side effects (database writes and
seconds slept in the rate limiter). -/
structure ScrapeState where
  reposScraped : Nat
  counter : Counter
  persists : List PersistCall
  slept : Int
deriving DecidableEq

/-- Control-flow outcome of a loop of `scrape_dotfiles_repos`: fall
through to the next iteration/keyword, early `return repos_scraped,
scraped_counter`, an uncaught exception, or exhaustion of the explicit
pagination fuel (the `while True` loop has no bound of its own). -/
inductive StepResult where
  | next (st : ScrapeState)
  | finished (st : ScrapeState)
  | failed (msg : String) (st : ScrapeState)
  | fuelOut (st : ScrapeState)
deriving DecidableEq

/-- The `for item in items` loop: scrape the repo, update the counter,
increment `repos_scraped`, and return as soon as `repos_scraped >= num`. -/
def itemsLoop (env : DotfilesEnv) (kw : String) (num : Int) :
    List SearchItem → ScrapeState → StepResult
  | [], st => .next st
  | item :: rest, st =>
    match getPluginReposFromDotfiles env item kw with
    | .error msg => .failed msg st
    | .ok (stats, pcalls) =>
      let st' : ScrapeState :=
        ⟨st.reposScraped + 1, counterUpdate st.counter stats,
         st.persists ++ pcalls, st.slept⟩
      if (st'.reposScraped : Int) ≥ num then .finished st'
      else itemsLoop env kw num rest st'

/-- The `while True` pagination loop for one keyword: fetch page 1 of the
search for the current cursor (`per_page = 100`), process its items, run
the rate limiter, stop when the page has fewer than 100 items, otherwise
continue from the last item's `pushed_at`. -/
def pageLoop (env : DotfilesEnv) (kw : String) (num : Int) :
    Nat → Int → ScrapeState → StepResult
  | 0, _, st => .fuelOut st
  | fuel + 1, lastPushedDate, st =>
    let page := env.search (searchParamsFor kw lastPushedDate)
    match itemsLoop env kw num page.items st with
    | .next st' =>
      let slept := maybeWaitSeconds page.headers env.now
      let st'' : ScrapeState := ⟨st'.reposScraped, st'.counter, st'.persists, st'.slept + slept⟩
      if page.items.length < 100 then .next st''
      else pageLoop env kw num fuel ((page.items.getLastD ⟨"", 0⟩).pushed_at) st''
    | r => r

/-- The `for repo_name in _DOTFILE_REPO_NAMES` loop. -/
def keywordsLoop (env : DotfilesEnv) (num : Int) (fuel : Nat) :
    List String → ScrapeState → StepResult
  | [], st => .next st
  | kw :: rest, st =>
    match pageLoop env kw num fuel (firstLastPushedDate (env.getLatestWithKeyword kw)) st with
    | .next st' => keywordsLoop env num fuel rest st'
    | r => r

/-- `scrape_dotfiles_repos(num)`.  `fuel` bounds the number of pages per
keyword (the Python loop is unbounded). -/
def scrapeDotfilesRepos (env : DotfilesEnv) (num : Int) (fuel : Nat) : StepResult :=
  keywordsLoop env num fuel dotfileRepoNames ⟨0, ⟨0, 0, 0⟩, [], 0⟩

/-- The `(repos_scraped, scraped_counter)` value a completed run returns
(either by the early `return` or by falling off the keyword loop);
`none` when the run raised or ran out of pagination fuel. -/
def scrapeReturn : StepResult → Option (Nat × Counter)
  | .next st => some (st.reposScraped, st.counter)
  | .finished st => some (st.reposScraped, st.counter)
  | .failed _ _ => none
  | .fuelOut _ => none

/-! ## Theorems for the claims -/

/-- Claim C1: at the depth limit, `_extract_bundle_repos_from_dir` does
NOT return the empty pair `([], [])` — the bare `return` yields Python
`None` (here `.ok none`), contradicting the claim and the function's own
docstring ("Returns: A tuple"). -/
theorem c1_depth_limit_returns_none :
    extractBundleReposFromDir [] 3 = .ok none ∧
    extractBundleReposFromDir [] 3 ≠ .ok (some ([], [])) := by
  refine ⟨rfl, fun h => ?_⟩
  exact Option.noConfusion (Except.ok.inj h)

/-- Claim C2: a listing processed at depth 2 containing a subdirectory
whose lowercased name contains a candidate substring makes the walker
recurse at depth 3; that call's depth-limit branch returns `None`
(`.ok none`), and the caller's `any(None)` raises `TypeError` — the
walker is not total on all reachable inputs. -/
theorem c2_walker_raises_type_error :
    extractBundleReposFromDir [] 3 = .ok none ∧
    extractBundleReposFromDir [Entry.dir "vim" []] 2 = .error "TypeError" := by
  exact ⟨rfl, rfl⟩

/-- Claim C3: with a non-empty commits list, the reconciled `created_at`
is `min(repository created_at, author date of the last — oldest — fetched
commit)`; with an empty or non-list commits payload it is the
repository-reported creation date. -/
theorem c3_created_at_reconciliation (rc ru : Int) (cs : List Commit) (h : cs ≠ []) :
    (fetchPluginDates rc ru (.list cs)).1 = min rc ((cs.getLast h).authorDate) ∧
    (fetchPluginDates rc ru (.list [])).1 = rc ∧
    (fetchPluginDates rc ru .notList).1 = rc := by
  refine ⟨?_, rfl, rfl⟩
  cases cs with
  | nil => exact absurd rfl h
  | cons c cs' => simp [fetchPluginDates, List.getLast_eq_getLastD]

/-- Witness for C3 at a concrete input: repo created 2020, oldest of two
fetched commits authored 2019 (most-recent-first list `[2021, 2019]`). -/
theorem c3_created_at_reconciliation_witness :
    (fetchPluginDates 2020 0 (.list [⟨2021⟩, ⟨2019⟩])).1 = min 2020 2019 ∧
    (fetchPluginDates 2020 0 (.list [])).1 = 2020 ∧
    (fetchPluginDates 2020 0 .notList).1 = 2020 := by
  have h := c3_created_at_reconciliation 2020 0 [⟨2021⟩, ⟨2019⟩] (by simp)
  exact h

/-- Claim C4 is false as stated: the code computes
`(reset_date - now).seconds + 1`, i.e. the difference modulo one day plus
one, not `reset_time - now + 1`.  With the reset 86405 seconds in the
future the limiter sleeps 6 seconds, not 86406. -/
theorem c4_counterexample :
    maybeWaitSeconds ⟨"0", 86405⟩ 0 = 6 ∧ (6 : Int) ≠ 86405 - 0 + 1 := by
  constructor
  · rfl
  · decide

/-- Claim C4 (amended): when `X-RateLimit-Remaining` equals `'0'`, the
limiter sleeps `((reset_time - now) mod 86400) + 1` seconds
(`timedelta.seconds` semantics), which equals `reset_time - now + 1`
whenever `0 ≤ reset_time - now < 86400` (so approximately 6 seconds for a
reset 5 seconds ahead); when the remaining header is nonzero it returns
immediately without sleeping. -/
theorem c4_amended_rate_limiter (h : RLHeaders) (now : Int) :
    (h.remaining = "0" →
      maybeWaitSeconds h now = (h.reset - now).emod 86400 + 1) ∧
    (h.remaining = "0" → 0 ≤ h.reset - now → h.reset - now < 86400 →
      maybeWaitSeconds h now = h.reset - now + 1) ∧
    (h.remaining ≠ "0" → maybeWaitSeconds h now = 0) := by
  refine ⟨fun h0 => ?_, fun h0 hge hlt => ?_, fun hne => ?_⟩
  · simp [maybeWaitSeconds, h0]
  · simp [maybeWaitSeconds, h0]
    exact Int.emod_eq_of_lt hge hlt
  · simp [maybeWaitSeconds, hne]

/-- Witness for the amended C4: reset 5 seconds ahead sleeps 6 seconds;
nonzero remaining sleeps 0. -/
theorem c4_amended_rate_limiter_witness :
    maybeWaitSeconds ⟨"0", 5⟩ 0 = 5 - 0 + 1 ∧ maybeWaitSeconds ⟨"4999", 5⟩ 0 = 0 := by
  exact ⟨(c4_amended_rate_limiter ⟨"0", 5⟩ 0).2.1 rfl (by decide) (by decide),
         (c4_amended_rate_limiter ⟨"4999", 5⟩ 0).2.2 (by decide)⟩

/-- The spec's resume rule, stated in its own words: the first query of a
run filters on `pushed >` the later of the fixed epoch floor and the
maximum `pushed_at` previously persisted for the keyword (when none is
recorded, the floor itself). -/
def specKeywordResumeCursor : Option Int → Int
  | some t => max EARLIEST_PUSHED_DATE t
  | none => EARLIEST_PUSHED_DATE

/-- Claim C6: for every keyword, the first search query of a run is built
from the cursor `max(floor, previously persisted max pushed_at)` — in
particular `pushed > 2021-03-01`, not the floor, when the prior max is
2021-03-01, and `pushed > floor` with no prior record.  (A persisted
`pushed_at` of exactly 0 is falsy in the code and falls back to the
floor, which coincides with `max floor 0` since the floor is positive.) -/
theorem c6_keyword_cursor_resumption (kw : String) (latest : Option RepoDict) :
    searchParamsFor kw (firstLastPushedDate latest) =
      ⟨kw, specKeywordResumeCursor (latest.bind RepoDict.pushed_at), "updated", "asc"⟩ := by
  cases latest with
  | none => rfl
  | some repo =>
    cases hp : repo.pushed_at with
    | none => simp [searchParamsFor, firstLastPushedDate, specKeywordResumeCursor, hp]
    | some t =>
      by_cases ht : t = 0
      · subst ht
        simp [searchParamsFor, firstLastPushedDate, specKeywordResumeCursor, hp]
        norm_num [EARLIEST_PUSHED_DATE]
      · simp [searchParamsFor, firstLastPushedDate, specKeywordResumeCursor, hp, ht,
          max_comm]

/-- Claim C9: a 404 status or a non-list body on the directory-contents
fetch makes `_get_plugin_repos_from_dotfiles` return `None` with no
extraction and no database write, and the enclosing items loop of
`scrape_dotfiles_repos` does not crash: the counter update is a no-op and
the loop moves to the next search result (or returns the quota). -/
theorem c9_contents_not_found (env : DotfilesEnv) (kw : String) (num : Int)
    (item : SearchItem) (rest : List SearchItem) (st : ScrapeState)
    (hnf : (env.contents item.full_name).1 = 404 ∨
           (env.contents item.full_name).2.isList = false) :
    getPluginReposFromDotfiles env item kw = .ok (none, []) ∧
    itemsLoop env kw num (item :: rest) st =
      (if ((st.reposScraped + 1 : Nat) : Int) ≥ num then
        StepResult.finished ⟨st.reposScraped + 1, st.counter, st.persists, st.slept⟩
      else itemsLoop env kw num rest
        ⟨st.reposScraped + 1, st.counter, st.persists, st.slept⟩) := by
  have h1 : getPluginReposFromDotfiles env item kw = .ok (none, []) := by
    unfold getPluginReposFromDotfiles
    rcases hnf with h404 | hlist
    · simp [h404]
    · simp [hlist]
  refine ⟨h1, ?_⟩
  rw [itemsLoop, h1]
  simp [counterUpdate]

/-- Whether a fetch event is a candidate-file contents fetch. -/
def isFileEvent : FetchEvent → Bool
  | .file _ _ => true
  | .dir _ => false

/-- Whether a fetch event is a file fetch whose decoded contents yield at
least one extracted reference (`any(bundles_tuple)` is truthy). -/
def successFileEvent : FetchEvent → Bool
  | .file _ contents => anyPair (extractBundleReposFromFile contents)
  | .dir _ => false

/-- The bundles pair extracted from a fetched file's contents. -/
def eventBundles : FetchEvent → BundlesPair
  | .file _ contents => extractBundleReposFromFile contents
  | .dir _ => ([], [])

lemma filesLoopT_events_are_files (fs : List Entry) :
    ∀ e ∈ (filesLoopT fs).2, isFileEvent e = true := by
  induction fs with
  | nil => intro e he; simp [filesLoopT] at he
  | cons head rest ih =>
    cases head with
    | dir n l => simpa [filesLoopT] using ih
    | file name contents =>
      by_cases h1 : fileIsCandidate name = true
      · by_cases h2 : anyPair (extractBundleReposFromFile contents) = true
        · intro e he
          simp [filesLoopT, h1, h2] at he
          subst he; rfl
        · intro e he
          simp [filesLoopT, h1, h2] at he
          rcases he with he | he
          · subst he; rfl
          · exact ih e he
      · simpa [filesLoopT, h1] using ih

lemma filesLoopT_success (fs : List Entry) :
    ∀ e ∈ (filesLoopT fs).2, successFileEvent e = true →
      (filesLoopT fs).2.getLast? = some e ∧ (filesLoopT fs).1 = some (eventBundles e) := by
  induction fs with
  | nil => intro e he; simp [filesLoopT] at he
  | cons head rest ih =>
    cases head with
    | dir n l => simpa [filesLoopT] using ih
    | file name contents =>
      by_cases h1 : fileIsCandidate name = true
      · by_cases h2 : anyPair (extractBundleReposFromFile contents) = true
        · intro e he hs
          simp [filesLoopT, h1, h2] at he ⊢
          subst he
          exact ⟨rfl, rfl⟩
        · intro e he hs
          simp [filesLoopT, h1, h2] at he ⊢
          rcases he with he | he
          · subst he
            simp [successFileEvent, h2] at hs
          · have h := ih e he hs
            have hne : (filesLoopT rest).2 ≠ [] := by
              intro hnil
              rw [hnil] at he
              simp at he
            refine ⟨?_, h.2⟩
            rcases hl : (filesLoopT rest).2 with _ | ⟨c, cs⟩
            · exact absurd hl hne
            · rw [hl] at h
              rw [List.getLast?_cons_cons]
              exact h.1
      · simpa [filesLoopT, h1] using ih

lemma filesLoopT_none (fs : List Entry) (hn : (filesLoopT fs).1 = none) :
    ∀ e ∈ (filesLoopT fs).2, successFileEvent e = false := by
  intro e he
  by_contra hs
  simp only [Bool.not_eq_false] at hs
  have h := filesLoopT_success fs e he hs
  rw [hn] at h
  exact Option.noConfusion h.2

lemma dirsLoopT_events_are_dirs (recurse : List Entry → Except String (Option BundlesPair))
    (ds : List Entry) : ∀ e ∈ (dirsLoopT recurse ds).2, isFileEvent e = false := by
  induction ds with
  | nil => intro e he; simp [dirsLoopT] at he
  | cons head rest ih =>
    cases head with
    | file n c => simpa [dirsLoopT] using ih
    | dir name listing =>
      by_cases h1 : dirIsCandidate name = true
      · intro e he
        simp only [dirsLoopT, h1, Bool.not_true] at he
        rcases hr : recurse listing with msg | ob
        · rw [hr] at he
          simp at he
          subst he; rfl
        · rcases ob with _ | bt
          · rw [hr] at he
            simp at he
            subst he; rfl
          · rw [hr] at he
            by_cases h2 : anyPair bt = true
            · simp [h2] at he
              subst he; rfl
            · simp [h2] at he
              rcases he with he | he
              · subst he; rfl
              · exact ih e he
      · simpa [dirsLoopT, h1] using ih

/-- Claim C5: in any one invocation of the directory walker, as soon as
some candidate file's contents yield an extracted reference, that fetch is
the invocation's last `get_api_page` call (no later candidate file and no
subdirectory of that listing is fetched), every call it made was a
candidate-file fetch, and the walker returns exactly that file's bundles
pair. -/
theorem c5_walker_short_circuits (dirData : List Entry) (depth : Nat) (e : FetchEvent)
    (he : e ∈ (walkAuxT (3 - depth) dirData).2) (hs : successFileEvent e = true) :
    (walkAuxT (3 - depth) dirData).2.getLast? = some e ∧
    (∀ e' ∈ (walkAuxT (3 - depth) dirData).2, isFileEvent e' = true) ∧
    extractBundleReposFromDir dirData depth = .ok (some (eventBundles e)) := by
  unfold extractBundleReposFromDir
  generalize 3 - depth = fuel at he ⊢
  cases fuel with
  | zero => simp [walkAuxT] at he
  | succ fuel =>
    rcases hf : filesLoopT dirData with ⟨first, evs⟩
    rcases first with _ | bt
    · simp only [walkAuxT, hf] at he ⊢
      rcases List.mem_append.mp he with hev | hev
      · have := filesLoopT_none dirData (by rw [hf]) e (by rw [hf]; exact hev)
        rw [hs] at this
        exact Bool.noConfusion this
      · have := dirsLoopT_events_are_dirs (fun listing => (walkAuxT fuel listing).1)
          dirData e hev
        have hfile : isFileEvent e = true := by
          cases e with
          | file n c => rfl
          | dir n => simp [successFileEvent] at hs
        rw [hfile] at this
        exact Bool.noConfusion this
    · simp only [walkAuxT, hf] at he ⊢
      have h := filesLoopT_success dirData e (by rw [hf]; exact he) hs
      rw [hf] at h
      simp only at h
      refine ⟨h.1, ?_, ?_⟩
      · intro e' he'
        exact filesLoopT_events_are_files dirData e' (by rw [hf]; exact he')
      · rw [Option.some.inj h.2]

/-- Witness for C5: a listing with one candidate file whose contents
declare one bundle. -/
theorem c5_walker_short_circuits_witness :
    (FetchEvent.file "vimrc" "Bundle 'a/b'" ∈
        (walkAuxT (3 - 0) [Entry.file "vimrc" "Bundle 'a/b'"]).2 ∧
      successFileEvent (FetchEvent.file "vimrc" "Bundle 'a/b'") = true) ∧
    extractBundleReposFromDir [Entry.file "vimrc" "Bundle 'a/b'"] 0 =
      .ok (some ([("a", "b")], [])) := by
  refine ⟨⟨?_, ?_⟩, ?_⟩
  · exact List.mem_singleton.mpr rfl
  · rfl
  · have h := c5_walker_short_circuits [Entry.file "vimrc" "Bundle 'a/b'"] 0
      (FetchEvent.file "vimrc" "Bundle 'a/b'") (List.mem_singleton.mpr rfl) rfl
    exact h.2.2

/-- A concrete environment whose contents fetches always return 404. -/
def envAll404 : DotfilesEnv :=
  ⟨fun _ => none, fun _ => ⟨[], ⟨"1", 0⟩⟩, fun _ => (404, .nonList), fun _ _ => none, 0⟩

/-- Witness for C9 at a concrete input: one search item whose contents
fetch 404s; the helper returns no stats and no write, and the items loop
proceeds to the quota return with the counter untouched. -/
theorem c9_contents_not_found_witness :
    getPluginReposFromDotfiles envAll404 ⟨"a/b", 5⟩ "dotfile" = .ok (none, []) ∧
    itemsLoop envAll404 "dotfile" 1 [⟨"a/b", 5⟩] ⟨0, ⟨0, 0, 0⟩, [], 0⟩ =
      .finished ⟨1, ⟨0, 0, 0⟩, [], 0⟩ := by
  have h := c9_contents_not_found envAll404 "dotfile" 1 ⟨"a/b", 5⟩ [] ⟨0, ⟨0, 0, 0⟩, [], 0⟩
    (Or.inl rfl)
  refine ⟨h.1, ?_⟩
  rw [h.2]
  norm_num

lemma itemsLoop_le (env : DotfilesEnv) (kw : String) (num : Int) :
    ∀ (items : List SearchItem) (st : ScrapeState),
      (st.reposScraped : Int) < max num 1 →
      (∀ st', itemsLoop env kw num items st = .next st' →
        (st'.reposScraped : Int) < max num 1) ∧
      (∀ st', itemsLoop env kw num items st = .finished st' →
        (st'.reposScraped : Int) ≤ max num 1) := by
  intro items
  induction items with
  | nil =>
    intro st hst
    refine ⟨fun st' h => ?_, fun st' h => ?_⟩
    · rw [itemsLoop] at h
      cases h
      exact hst
    · rw [itemsLoop] at h
      exact StepResult.noConfusion h
  | cons item rest ih =>
    intro st hst
    have hnm : num ≤ max num 1 := le_max_left num 1
    rcases hg : getPluginReposFromDotfiles env item kw with msg | ⟨stats, pcalls⟩
    · refine ⟨fun st' h => ?_, fun st' h => ?_⟩ <;>
      · simp only [itemsLoop, hg] at h
        exact StepResult.noConfusion h
    · by_cases hq : ((st.reposScraped + 1 : Nat) : Int) ≥ num
      · refine ⟨fun st' h => ?_, fun st' h => ?_⟩
        · simp only [itemsLoop, hg, hq, if_pos] at h
          exact StepResult.noConfusion h
        · simp only [itemsLoop, hg, hq, if_pos] at h
          cases h
          push_cast
          omega
      · refine ⟨fun st' h => ?_, fun st' h => ?_⟩ <;>
        · simp only [itemsLoop, hg, hq, if_neg] at h
          have hlt : ((⟨st.reposScraped + 1, counterUpdate st.counter stats,
              st.persists ++ pcalls, st.slept⟩ : ScrapeState).reposScraped : Int) <
              max num 1 := by
            simp only
            push_cast
            push_cast at hq
            omega
          first
          | exact (ih _ hlt).1 st' h
          | exact (ih _ hlt).2 st' h

lemma pageLoop_le (env : DotfilesEnv) (kw : String) (num : Int) :
    ∀ (fuel : Nat) (cursor : Int) (st : ScrapeState),
      (st.reposScraped : Int) < max num 1 →
      (∀ st', pageLoop env kw num fuel cursor st = .next st' →
        (st'.reposScraped : Int) < max num 1) ∧
      (∀ st', pageLoop env kw num fuel cursor st = .finished st' →
        (st'.reposScraped : Int) ≤ max num 1) := by
  intro fuel
  induction fuel with
  | zero =>
    intro cursor st hst
    refine ⟨fun st' h => ?_, fun st' h => ?_⟩ <;>
    · rw [pageLoop] at h
      exact StepResult.noConfusion h
  | succ fuel ih =>
    intro cursor st hst
    rcases hi : itemsLoop env kw num
        (env.search (searchParamsFor kw cursor)).items st with st1 | st1 | ⟨m, st1⟩ | st1
    · have h1 := (itemsLoop_le env kw num _ st hst).1 st1 hi
      by_cases hlen : (env.search (searchParamsFor kw cursor)).items.length < 100
      · refine ⟨fun st' h => ?_, fun st' h => ?_⟩
        · simp only [pageLoop, hi, hlen, if_pos] at h
          cases h
          exact h1
        · simp only [pageLoop, hi, hlen, if_pos] at h
          exact StepResult.noConfusion h
      · refine ⟨fun st' h => ?_, fun st' h => ?_⟩ <;>
        · simp only [pageLoop, hi, hlen, if_neg] at h
          have h2 : ((⟨st1.reposScraped, st1.counter, st1.persists,
              st1.slept + maybeWaitSeconds (env.search (searchParamsFor kw cursor)).headers
                env.now⟩ : ScrapeState).reposScraped : Int) < max num 1 := h1
          first
          | exact (ih _ _ h2).1 st' h
          | exact (ih _ _ h2).2 st' h
    · have h1 := (itemsLoop_le env kw num _ st hst).2 st1 hi
      refine ⟨fun st' h => ?_, fun st' h => ?_⟩ <;>
      · simp only [pageLoop, hi] at h
        first
        | exact StepResult.noConfusion h
        | (cases h; exact h1)
    · refine ⟨fun st' h => ?_, fun st' h => ?_⟩ <;>
      · simp only [pageLoop, hi] at h
        exact StepResult.noConfusion h
    · refine ⟨fun st' h => ?_, fun st' h => ?_⟩ <;>
      · simp only [pageLoop, hi] at h
        exact StepResult.noConfusion h

lemma keywordsLoop_le (env : DotfilesEnv) (num : Int) (fuel : Nat) :
    ∀ (kws : List String) (st : ScrapeState),
      (st.reposScraped : Int) < max num 1 →
      (∀ st', keywordsLoop env num fuel kws st = .next st' →
        (st'.reposScraped : Int) < max num 1) ∧
      (∀ st', keywordsLoop env num fuel kws st = .finished st' →
        (st'.reposScraped : Int) ≤ max num 1) := by
  intro kws
  induction kws with
  | nil =>
    intro st hst
    refine ⟨fun st' h => ?_, fun st' h => ?_⟩
    · rw [keywordsLoop] at h
      cases h
      exact hst
    · rw [keywordsLoop] at h
      exact StepResult.noConfusion h
  | cons kw rest ih =>
    intro st hst
    rcases hp : pageLoop env kw num fuel
        (firstLastPushedDate (env.getLatestWithKeyword kw)) st with st1 | st1 | ⟨m, st1⟩ | st1
    · have h1 := (pageLoop_le env kw num fuel _ st hst).1 st1 hp
      refine ⟨fun st' h => ?_, fun st' h => ?_⟩ <;>
      · simp only [keywordsLoop, hp] at h
        first
        | exact (ih _ h1).1 st' h
        | exact (ih _ h1).2 st' h
    · have h1 := (pageLoop_le env kw num fuel _ st hst).2 st1 hp
      refine ⟨fun st' h => ?_, fun st' h => ?_⟩ <;>
      · simp only [keywordsLoop, hp] at h
        first
        | exact StepResult.noConfusion h
        | (cases h; exact h1)
    · refine ⟨fun st' h => ?_, fun st' h => ?_⟩ <;>
      · simp only [keywordsLoop, hp] at h
        exact StepResult.noConfusion h
    · refine ⟨fun st' h => ?_, fun st' h => ?_⟩ <;>
      · simp only [keywordsLoop, hp] at h
        exact StepResult.noConfusion h

lemma itemsLoop_zero_quota (env : DotfilesEnv) (kw : String) (num : Int) (hnum : num ≤ 0) :
    ∀ (items : List SearchItem) (st : ScrapeState), st.reposScraped = 0 →
      (∀ st', itemsLoop env kw num items st = .next st' → st'.reposScraped = 0) ∧
      (∀ st', itemsLoop env kw num items st = .finished st' → st'.reposScraped = 1) := by
  intro items st hst
  cases items with
  | nil =>
    refine ⟨fun st' h => ?_, fun st' h => ?_⟩
    · rw [itemsLoop] at h
      cases h
      exact hst
    · rw [itemsLoop] at h
      exact StepResult.noConfusion h
  | cons item rest =>
    rcases hg : getPluginReposFromDotfiles env item kw with msg | ⟨stats, pcalls⟩
    · refine ⟨fun st' h => ?_, fun st' h => ?_⟩ <;>
      · simp only [itemsLoop, hg] at h
        exact StepResult.noConfusion h
    · have hq : ((st.reposScraped + 1 : Nat) : Int) ≥ num := by
        rw [hst]
        push_cast
        omega
      refine ⟨fun st' h => ?_, fun st' h => ?_⟩
      · simp only [itemsLoop, hg, hq, if_pos] at h
        exact StepResult.noConfusion h
      · simp only [itemsLoop, hg, hq, if_pos] at h
        cases h
        simp [hst]

lemma pageLoop_zero_quota (env : DotfilesEnv) (kw : String) (num : Int) (hnum : num ≤ 0) :
    ∀ (fuel : Nat) (cursor : Int) (st : ScrapeState), st.reposScraped = 0 →
      (∀ st', pageLoop env kw num fuel cursor st = .next st' → st'.reposScraped = 0) ∧
      (∀ st', pageLoop env kw num fuel cursor st = .finished st' → st'.reposScraped = 1) := by
  intro fuel
  induction fuel with
  | zero =>
    intro cursor st hst
    refine ⟨fun st' h => ?_, fun st' h => ?_⟩ <;>
    · rw [pageLoop] at h
      exact StepResult.noConfusion h
  | succ fuel ih =>
    intro cursor st hst
    rcases hi : itemsLoop env kw num
        (env.search (searchParamsFor kw cursor)).items st with st1 | st1 | ⟨m, st1⟩ | st1
    · have h1 := (itemsLoop_zero_quota env kw num hnum _ st hst).1 st1 hi
      by_cases hlen : (env.search (searchParamsFor kw cursor)).items.length < 100
      · refine ⟨fun st' h => ?_, fun st' h => ?_⟩
        · simp only [pageLoop, hi, hlen, if_pos] at h
          cases h
          exact h1
        · simp only [pageLoop, hi, hlen, if_pos] at h
          exact StepResult.noConfusion h
      · refine ⟨fun st' h => ?_, fun st' h => ?_⟩ <;>
        · simp only [pageLoop, hi, hlen, if_neg] at h
          have h2 : ((⟨st1.reposScraped, st1.counter, st1.persists,
              st1.slept + maybeWaitSeconds (env.search (searchParamsFor kw cursor)).headers
                env.now⟩ : ScrapeState)).reposScraped = 0 := h1
          first
          | exact (ih _ _ h2).1 st' h
          | exact (ih _ _ h2).2 st' h
    · have h1 := (itemsLoop_zero_quota env kw num hnum _ st hst).2 st1 hi
      refine ⟨fun st' h => ?_, fun st' h => ?_⟩ <;>
      · simp only [pageLoop, hi] at h
        first
        | exact StepResult.noConfusion h
        | (cases h; exact h1)
    · refine ⟨fun st' h => ?_, fun st' h => ?_⟩ <;>
      · simp only [pageLoop, hi] at h
        exact StepResult.noConfusion h
    · refine ⟨fun st' h => ?_, fun st' h => ?_⟩ <;>
      · simp only [pageLoop, hi] at h
        exact StepResult.noConfusion h

lemma keywordsLoop_zero_quota (env : DotfilesEnv) (num : Int) (fuel : Nat) (hnum : num ≤ 0) :
    ∀ (kws : List String) (st : ScrapeState), st.reposScraped = 0 →
      (∀ st', keywordsLoop env num fuel kws st = .next st' → st'.reposScraped = 0) ∧
      (∀ st', keywordsLoop env num fuel kws st = .finished st' → st'.reposScraped = 1) := by
  intro kws
  induction kws with
  | nil =>
    intro st hst
    refine ⟨fun st' h => ?_, fun st' h => ?_⟩
    · rw [keywordsLoop] at h
      cases h
      exact hst
    · rw [keywordsLoop] at h
      exact StepResult.noConfusion h
  | cons kw rest ih =>
    intro st hst
    rcases hp : pageLoop env kw num fuel
        (firstLastPushedDate (env.getLatestWithKeyword kw)) st with st1 | st1 | ⟨m, st1⟩ | st1
    · have h1 := (pageLoop_zero_quota env kw num hnum fuel _ st hst).1 st1 hp
      refine ⟨fun st' h => ?_, fun st' h => ?_⟩ <;>
      · simp only [keywordsLoop, hp] at h
        first
        | exact (ih _ h1).1 st' h
        | exact (ih _ h1).2 st' h
    · have h1 := (pageLoop_zero_quota env kw num hnum fuel _ st hst).2 st1 hp
      refine ⟨fun st' h => ?_, fun st' h => ?_⟩ <;>
      · simp only [keywordsLoop, hp] at h
        first
        | exact StepResult.noConfusion h
        | (cases h; exact h1)
    · refine ⟨fun st' h => ?_, fun st' h => ?_⟩ <;>
      · simp only [keywordsLoop, hp] at h
        exact StepResult.noConfusion h
    · refine ⟨fun st' h => ?_, fun st' h => ?_⟩ <;>
      · simp only [keywordsLoop, hp] at h
        exact StepResult.noConfusion h

/-- Claim C10: the quota check runs only after a repository has been
processed.  For any environment: a completed run returns at most
`max num 1` repos (so at most `num` when `num ≥ 1`); and when `num ≤ 0`,
an early return still carries a count of exactly 1 (the first processed
repo triggers it), a fall-through return carries 0 (no search result was
processed), and concretely, if the first keyword's first page has a first
item whose scrape succeeds, the run processes it and returns
`(1, counter)` rather than 0. -/
theorem c10_quota_checked_after_processing (env : DotfilesEnv) (num : Int) (fuel : Nat) :
    (∀ n c, scrapeReturn (scrapeDotfilesRepos env num fuel) = some (n, c) →
      (n : Int) ≤ max num 1) ∧
    (num ≤ 0 → ∀ st, scrapeDotfilesRepos env num fuel = .finished st →
      st.reposScraped = 1) ∧
    (num ≤ 0 → ∀ st, scrapeDotfilesRepos env num fuel = .next st →
      st.reposScraped = 0) ∧
    (num ≤ 0 → ∀ (f : Nat) (item : SearchItem) (restItems : List SearchItem)
        (stats : Option Stats) (pcalls : List PersistCall),
      fuel = f + 1 →
      (env.search (searchParamsFor "dotfile"
        (firstLastPushedDate (env.getLatestWithKeyword "dotfile")))).items =
          item :: restItems →
      getPluginReposFromDotfiles env item "dotfile" = .ok (stats, pcalls) →
      scrapeDotfilesRepos env num fuel =
        .finished ⟨1, counterUpdate ⟨0, 0, 0⟩ stats, pcalls, 0⟩) := by
  have hst0 : ((⟨0, ⟨0, 0, 0⟩, [], 0⟩ : ScrapeState).reposScraped : Int) < max num 1 := by
    simp only
    have := le_max_right num 1
    omega
  refine ⟨fun n c h => ?_, fun hnum st h => ?_, fun hnum st h => ?_,
    fun hnum f item restItems stats pcalls hfuel hitems hg => ?_⟩
  · rcases hr : scrapeDotfilesRepos env num fuel with st | st | ⟨m, st⟩ | st <;>
      rw [hr] at h <;> simp [scrapeReturn] at h
    · rcases h with ⟨h1, h2⟩
      subst h1
      exact le_of_lt
        ((keywordsLoop_le env num fuel dotfileRepoNames _ hst0).1 st hr)
    · rcases h with ⟨h1, h2⟩
      subst h1
      exact (keywordsLoop_le env num fuel dotfileRepoNames _ hst0).2 st hr
  · exact (keywordsLoop_zero_quota env num fuel hnum dotfileRepoNames _ rfl).2 st h
  · exact (keywordsLoop_zero_quota env num fuel hnum dotfileRepoNames _ rfl).1 st h
  · subst hfuel
    have hq : (((0 : Nat) + 1 : Nat) : Int) ≥ num := by
      push_cast
      omega
    rw [scrapeDotfilesRepos]
    show keywordsLoop env num (f + 1) ("dotfile" :: _) _ = _
    simp only [keywordsLoop, pageLoop, hitems, itemsLoop, hg, hq, if_pos,
      List.nil_append]

/-- A concrete environment with a single search result whose contents
fetch returns 404. -/
def envOne404 : DotfilesEnv :=
  ⟨fun _ => none, fun _ => ⟨[⟨"a/b", 5⟩], ⟨"1", 0⟩⟩, fun _ => (404, .nonList),
   fun _ _ => none, 0⟩

/-- Witness for C10: with quota `num = 0` and one available search
result, the run still processes it and returns a count of 1. -/
theorem c10_quota_checked_after_processing_witness :
    scrapeDotfilesRepos envOne404 0 1 = .finished ⟨1, ⟨0, 0, 0⟩, [], 0⟩ ∧
    ((1 : Nat) : Int) ≤ max 0 1 := by
  have h := c10_quota_checked_after_processing envOne404 0 1
  refine ⟨h.2.2.2 (by omega) 0 ⟨"a/b", 5⟩ [] none [] rfl rfl rfl, by omega⟩

/-! ### Support lemmas for the pattern-extractor claims -/

lemma splitLines_ne_nil (cs : List Char) : splitLines cs ≠ [] := by
  induction cs with
  | nil => simp [splitLines]
  | cons c rest ih =>
    rw [splitLines]
    by_cases hc : c = '\n'
    · simp [hc]
    · rcases h : splitLines rest with _ | ⟨l, ls⟩
      · simp [hc, h]
      · simp [hc, h]

lemma splitLines_append (a b : List Char) :
    splitLines (a ++ '\n' :: b) = splitLines a ++ splitLines b := by
  induction a with
  | nil => simp [splitLines]
  | cons c a' ih =>
    by_cases hc : c = '\n'
    · subst hc
      simp [List.cons_append, splitLines, ih]
    · rcases h : splitLines a' with _ | ⟨l, ls⟩
      · exact absurd h (splitLines_ne_nil a')
      · simp only [List.cons_append, splitLines, if_neg hc, h, List.append_eq]
        rw [ih, h, List.cons_append]

lemma splitLines_of_no_newline (l : List Char) (h : ∀ c ∈ l, c ≠ '\n') :
    splitLines l = [l] := by
  induction l with
  | nil => rfl
  | cons c rest ih =>
    have hc : c ≠ '\n' := h c (List.mem_cons_self c rest)
    rw [splitLines, if_neg hc, ih fun x hx => h x (List.mem_cons_of_mem c hx)]

lemma dropWhile_append_of_all {p : Char → Bool} (ws rest : List Char)
    (h : ∀ c ∈ ws, p c = true) :
    (ws ++ rest).dropWhile p = rest.dropWhile p := by
  induction ws with
  | nil => rfl
  | cons c ws' ih =>
    rw [List.cons_append, List.dropWhile_cons,
      if_pos (h c (List.mem_cons_self c ws'))]
    exact ih fun x hx => h x (List.mem_cons_of_mem c hx)

lemma dropWhile_append_cons_of_neg {p : Char → Bool} (ws : List Char) (c : Char)
    (rest : List Char) (hws : ∀ x ∈ ws, p x = true) (hc : p c = false) :
    (ws ++ c :: rest).dropWhile p = c :: rest := by
  rw [dropWhile_append_of_all ws _ hws, List.dropWhile_cons, hc]
  simp

lemma takeWhile_append_of_all {p : Char → Bool} (g : List Char) (c : Char)
    (rest : List Char) (hg : ∀ x ∈ g, p x = true) (hc : p c = false) :
    (g ++ c :: rest).takeWhile p = g := by
  induction g with
  | nil =>
    rw [List.nil_append, List.takeWhile_cons, hc]
    simp
  | cons x g' ih =>
    rw [List.cons_append, List.takeWhile_cons,
      if_pos (hg x (List.mem_cons_self x g'))]
    rw [ih fun y hy => hg y (List.mem_cons_of_mem x hy)]

lemma isPrefixOf_append_self (x y : List Char) : x.isPrefixOf (x ++ y) = true := by
  induction x with
  | nil =>
    rw [List.nil_append]
    cases y <;> rfl
  | cons c x' ih => simp [List.isPrefixOf, ih]

lemma isPrefixOf_append_cancel (a b c : List Char) :
    (a ++ b).isPrefixOf (a ++ c) = b.isPrefixOf c := by
  induction a with
  | nil => simp
  | cons x a' ih => simp [List.isPrefixOf, ih]

lemma isPrefixOf_cons_of_ne (a b : Char) (as bs : List Char) (h : (a == b) = false) :
    (a :: as).isPrefixOf (b :: bs) = false := by
  simp [List.isPrefixOf, h]

lemma quoteChar_not_space {q : Char} (h : quoteChar q = true) :
    isPySpaceNoNl q = false := by
  rcases Bool.or_eq_true_iff.mp h with h' | h' <;>
    rw [eq_of_beq h'] <;> rfl

lemma quoteChar_not_argChar {q : Char} (h : quoteChar q = true) :
    bundleArgChar q = false := by
  rcases Bool.or_eq_true_iff.mp h with h' | h' <;>
    rw [eq_of_beq h'] <;> rfl

lemma pyws_ne_newline {c : Char} (h : isPySpaceNoNl c = true) : c ≠ '\n' := by
  intro hc
  subst hc
  exact Bool.noConfusion h

lemma bundleArgChar_ne_newline {c : Char} (h : bundleArgChar c = true) : c ≠ '\n' := by
  intro hc
  subst hc
  exact Bool.noConfusion h

lemma repoClassOk_argChar {c : Char} (h : repoClassOk c = true) :
    bundleArgChar c = true := by
  simp only [repoClassOk, Bool.not_eq_true', Bool.or_eq_false_iff] at h
  simp only [bundleArgChar, Bool.not_eq_true', Bool.or_eq_false_iff]
  exact ⟨⟨⟨h.1.1.1.1, h.1.1.1.2⟩, h.1.1.2⟩, h.1.2⟩

lemma repoClassOk_ne_newline {c : Char} (h : repoClassOk c = true) : c ≠ '\n' :=
  bundleArgChar_ne_newline (repoClassOk_argChar h)

lemma matchAfterKeyword_quoted (ws2 : List Char) (q : Char) (arg : List Char) (q2 : Char)
    (tail : List Char) (hws : ∀ c ∈ ws2, isPySpaceNoNl c = true) (hq : quoteChar q = true)
    (hne : arg ≠ []) (harg : ∀ c ∈ arg, bundleArgChar c = true) (hq2 : quoteChar q2 = true) :
    matchAfterKeyword (ws2 ++ q :: (arg ++ q2 :: tail)) = some arg := by
  have hd := dropWhile_append_cons_of_neg ws2 q (arg ++ q2 :: tail) hws (quoteChar_not_space hq)
  have ht := takeWhile_append_of_all arg q2 tail harg (quoteChar_not_argChar hq2)
  have hemp : arg.isEmpty = false := by
    cases arg with
    | nil => exact absurd rfl hne
    | cons _ _ => rfl
  rw [matchAfterKeyword, hd]
  simp only [hq, if_true, ht, List.drop_left, hq2, hemp, Bool.not_false, Bool.and_self,
    if_pos]

lemma matchAfterKeyword_head_bad (c : Char) (rest : List Char)
    (h1 : isPySpaceNoNl c = false) (h2 : quoteChar c = false) :
    matchAfterKeyword (c :: rest) = none := by
  rw [matchAfterKeyword, List.dropWhile_cons, h1]
  simp [h2]

lemma matchBundleLine_vundle (ws1 rest : List Char)
    (h1 : ∀ c ∈ ws1, isPySpaceNoNl c = true) :
    matchBundleLine vundleKeywords (ws1 ++ ("Bundle".data ++ rest)) =
      matchAfterKeyword rest := by
  have hd : List.dropWhile isPySpaceNoNl
      (ws1 ++ 'B' :: 'u' :: 'n' :: 'd' :: 'l' :: 'e' :: rest) =
      'B' :: 'u' :: 'n' :: 'd' :: 'l' :: 'e' :: rest :=
    dropWhile_append_cons_of_neg ws1 'B' _ h1 rfl
  have hdrop : List.drop "Bundle".length
      ('B' :: 'u' :: 'n' :: 'd' :: 'l' :: 'e' :: rest) = rest := rfl
  cases hX : matchAfterKeyword rest with
  | none =>
    simp +decide [matchBundleLine, vundleKeywords, hd, hdrop, List.findSome?_cons,
      List.cons_prefix_cons, hX]
  | some v =>
    simp +decide [matchBundleLine, vundleKeywords, hd, hdrop, List.findSome?_cons,
      List.cons_prefix_cons, hX]

lemma matchBundleLine_neoPlain (ws1 rest : List Char)
    (h1 : ∀ c ∈ ws1, isPySpaceNoNl c = true)
    (hF : ("Fetch".data).isPrefixOf rest = false)
    (hL : ("Lazy".data).isPrefixOf rest = false) :
    matchBundleLine neoBundleKeywords (ws1 ++ ("NeoBundle".data ++ rest)) =
      matchAfterKeyword rest := by
  have hd : List.dropWhile isPySpaceNoNl
      (ws1 ++ 'N' :: 'e' :: 'o' :: 'B' :: 'u' :: 'n' :: 'd' :: 'l' :: 'e' :: rest) =
      'N' :: 'e' :: 'o' :: 'B' :: 'u' :: 'n' :: 'd' :: 'l' :: 'e' :: rest :=
    dropWhile_append_cons_of_neg ws1 'N' _ h1 rfl
  have hdrop : List.drop "NeoBundle".length
      ('N' :: 'e' :: 'o' :: 'B' :: 'u' :: 'n' :: 'd' :: 'l' :: 'e' :: rest) = rest := rfl
  have hF' : ¬(('F' :: 'e' :: 't' :: 'c' :: 'h' :: [] : List Char) <+: rest) := by
    intro hp
    have hb := List.isPrefixOf_iff_prefix.mpr hp
    rw [show ('F' :: 'e' :: 't' :: 'c' :: 'h' :: ([] : List Char)) = "Fetch".data
      from rfl] at hb
    rw [hF] at hb
    exact Bool.noConfusion hb
  have hL' : ¬(('L' :: 'a' :: 'z' :: 'y' :: [] : List Char) <+: rest) := by
    intro hp
    have hb := List.isPrefixOf_iff_prefix.mpr hp
    rw [show ('L' :: 'a' :: 'z' :: 'y' :: ([] : List Char)) = "Lazy".data
      from rfl] at hb
    rw [hL] at hb
    exact Bool.noConfusion hb
  cases hX : matchAfterKeyword rest with
  | none =>
    simp +decide [matchBundleLine, neoBundleKeywords, hd, hdrop, List.findSome?_cons,
      List.cons_prefix_cons, hF', hL', hX]
  | some v =>
    simp +decide [matchBundleLine, neoBundleKeywords, hd, hdrop, List.findSome?_cons,
      List.cons_prefix_cons, hF', hL', hX]

lemma matchBundleLine_neoFetch (ws1 rest : List Char)
    (h1 : ∀ c ∈ ws1, isPySpaceNoNl c = true) :
    matchBundleLine neoBundleKeywords (ws1 ++ ("NeoBundleFetch".data ++ rest)) =
      matchAfterKeyword rest := by
  have hd : List.dropWhile isPySpaceNoNl
      (ws1 ++ 'N' :: 'e' :: 'o' :: 'B' :: 'u' :: 'n' :: 'd' :: 'l' :: 'e' ::
        'F' :: 'e' :: 't' :: 'c' :: 'h' :: rest) =
      'N' :: 'e' :: 'o' :: 'B' :: 'u' :: 'n' :: 'd' :: 'l' :: 'e' ::
        'F' :: 'e' :: 't' :: 'c' :: 'h' :: rest :=
    dropWhile_append_cons_of_neg ws1 'N' _ h1 rfl
  have hdrop1 : List.drop "NeoBundle".length
      ('N' :: 'e' :: 'o' :: 'B' :: 'u' :: 'n' :: 'd' :: 'l' :: 'e' ::
        'F' :: 'e' :: 't' :: 'c' :: 'h' :: rest) =
      'F' :: 'e' :: 't' :: 'c' :: 'h' :: rest := rfl
  have hdrop2 : List.drop "NeoBundleFetch".length
      ('N' :: 'e' :: 'o' :: 'B' :: 'u' :: 'n' :: 'd' :: 'l' :: 'e' ::
        'F' :: 'e' :: 't' :: 'c' :: 'h' :: rest) = rest := rfl
  have hbad : matchAfterKeyword ('F' :: 'e' :: 't' :: 'c' :: 'h' :: rest) = none :=
    matchAfterKeyword_head_bad 'F' _ rfl rfl
  cases hX : matchAfterKeyword rest with
  | none =>
    simp +decide [matchBundleLine, neoBundleKeywords, hd, hdrop1, hdrop2,
      List.findSome?_cons, List.cons_prefix_cons, hbad, hX]
  | some v =>
    simp +decide [matchBundleLine, neoBundleKeywords, hd, hdrop1, hdrop2,
      List.findSome?_cons, List.cons_prefix_cons, hbad, hX]

lemma matchBundleLine_neoLazy (ws1 rest : List Char)
    (h1 : ∀ c ∈ ws1, isPySpaceNoNl c = true) :
    matchBundleLine neoBundleKeywords (ws1 ++ ("NeoBundleLazy".data ++ rest)) =
      matchAfterKeyword rest := by
  have hd : List.dropWhile isPySpaceNoNl
      (ws1 ++ 'N' :: 'e' :: 'o' :: 'B' :: 'u' :: 'n' :: 'd' :: 'l' :: 'e' ::
        'L' :: 'a' :: 'z' :: 'y' :: rest) =
      'N' :: 'e' :: 'o' :: 'B' :: 'u' :: 'n' :: 'd' :: 'l' :: 'e' ::
        'L' :: 'a' :: 'z' :: 'y' :: rest :=
    dropWhile_append_cons_of_neg ws1 'N' _ h1 rfl
  have hdrop1 : List.drop "NeoBundle".length
      ('N' :: 'e' :: 'o' :: 'B' :: 'u' :: 'n' :: 'd' :: 'l' :: 'e' ::
        'L' :: 'a' :: 'z' :: 'y' :: rest) =
      'L' :: 'a' :: 'z' :: 'y' :: rest := rfl
  have hdrop3 : List.drop "NeoBundleLazy".length
      ('N' :: 'e' :: 'o' :: 'B' :: 'u' :: 'n' :: 'd' :: 'l' :: 'e' ::
        'L' :: 'a' :: 'z' :: 'y' :: rest) = rest := rfl
  have hbad : matchAfterKeyword ('L' :: 'a' :: 'z' :: 'y' :: rest) = none :=
    matchAfterKeyword_head_bad 'L' _ rfl rfl
  cases hX : matchAfterKeyword rest with
  | none =>
    simp +decide [matchBundleLine, neoBundleKeywords, hd, hdrop1, hdrop3,
      List.findSome?_cons, List.cons_prefix_cons, hbad, hX]
  | some v =>
    simp +decide [matchBundleLine, neoBundleKeywords, hd, hdrop1, hdrop3,
      List.findSome?_cons, List.cons_prefix_cons, hbad, hX]

lemma repoGroupFrom_all (rest : List Char) : ∀ (acc : List Char),
    (∀ c ∈ rest, repoClassOk c = true) →
    (∀ s, s <:+ rest → s ≠ '.' :: 'g' :: 'i' :: 't' :: []) →
    (acc = [] → rest ≠ []) →
    repoGroupFrom acc rest = some (acc.reverse ++ rest) := by
  induction rest with
  | nil =>
    intro acc _ _ h3
    have hacc : acc ≠ [] := by
      intro h
      exact (h3 h) rfl
    rw [repoGroupFrom, if_pos ⟨hacc, Or.inr rfl⟩, List.append_nil]
  | cons c rest' ih =>
    intro acc h1 h2 _
    have hcond : ¬(acc ≠ [] ∧
        (c :: rest' = '.' :: 'g' :: 'i' :: 't' :: [] ∨ c :: rest' = [])) := by
      rintro ⟨_, hor | hor⟩
      · exact h2 _ (List.suffix_refl _) hor
      · exact List.noConfusion hor
    rw [repoGroupFrom, if_neg hcond]
    rw [if_pos (h1 c (List.mem_cons_self c rest'))]
    rw [ih (c :: acc) (fun x hx => h1 x (List.mem_cons_of_mem c hx))
      (fun s hs => h2 s (hs.trans (List.suffix_cons c rest')))
      (fun h => List.noConfusion h)]
    simp

lemma ownerRepoMatchAt_slash (ownerD repoD : List Char) (ho : ownerD ≠ [])
    (howner : ∀ c ∈ ownerD, ownerClassOk c = true)
    (hrepo : repoD ≠ []) (hclass : ∀ c ∈ repoD, repoClassOk c = true)
    (hgit : ∀ s, s <:+ repoD → s ≠ '.' :: 'g' :: 'i' :: 't' :: []) :
    ownerRepoMatchAt (ownerD ++ '/' :: repoD) = some (some ownerD, repoD) := by
  have htake : (ownerD ++ '/' :: repoD).takeWhile ownerClassOk = ownerD :=
    takeWhile_append_of_all ownerD '/' repoD howner rfl
  have hdrop : (ownerD ++ '/' :: repoD).drop ownerD.length = '/' :: repoD :=
    List.drop_left ownerD ('/' :: repoD)
  rw [ownerRepoMatchAt]
  simp only [htake, hdrop]
  rw [if_pos ⟨ho, rfl⟩]
  simp only [List.tail_cons]
  rw [repoGroupFrom_all repoD [] hclass hgit (fun _ => hrepo)]
  rfl

lemma ownerRepoMatchAt_noslash (repoD : List Char) (hrepo : repoD ≠ [])
    (hclass : ∀ c ∈ repoD, repoClassOk c = true)
    (hgit : ∀ s, s <:+ repoD → s ≠ '.' :: 'g' :: 'i' :: 't' :: []) :
    ownerRepoMatchAt repoD = some (none, repoD) := by
  have hcond : ¬(repoD.takeWhile ownerClassOk ≠ [] ∧
      (repoD.drop (repoD.takeWhile ownerClassOk).length).head? = some '/') := by
    rintro ⟨_, hhead⟩
    rcases hr : repoD.drop (repoD.takeWhile ownerClassOk).length with _ | ⟨c, t⟩
    · rw [hr] at hhead
      exact Option.noConfusion hhead
    · rw [hr] at hhead
      have hc : c = '/' := Option.some.inj hhead
      have hmem : c ∈ repoD := List.drop_subset _ repoD (hr ▸ List.mem_cons_self c t)
      have := hclass c hmem
      rw [hc] at this
      exact Bool.noConfusion this
  rw [ownerRepoMatchAt]
  rw [if_neg hcond]
  rw [repoGroupFrom_all repoD [] hclass hgit (fun _ => hrepo)]
  rfl

lemma searchOwnerRepo_of_matchAt (cs : List Char) (r : Option (List Char) × List Char)
    (h : ownerRepoMatchAt cs = some r) : searchOwnerRepo cs = some r := by
  cases cs with
  | nil => rw [searchOwnerRepo]; exact h
  | cons c rest =>
    rw [searchOwnerRepo, h]

lemma head_newline_decomp (B : String) (hB : B = "" ∨ B.data.head? = some '\n') :
    B.data = [] ∨ ∃ t, B.data = '\n' :: t := by
  rcases hB with hB | hB
  · left
    rw [hB]
  · right
    rcases ht : B.data with _ | ⟨c, t⟩
    · rw [ht] at hB
      exact Option.noConfusion hB
    · rw [ht] at hB
      exact ⟨t, by rw [Option.some.inj hB]⟩

lemma mem_splitLines_mid (A B : String) (l : List Char)
    (hA : A = "" ∨ A.data.getLast? = some '\n') (hB : B = "" ∨ B.data.head? = some '\n')
    (hl : ∀ c ∈ l, c ≠ '\n') :
    l ∈ splitLines (A.data ++ (l ++ B.data)) := by
  have hright : l ∈ splitLines (l ++ B.data) := by
    rcases head_newline_decomp B hB with hB' | ⟨t, hB'⟩
    · rw [hB', List.append_nil, splitLines_of_no_newline l hl]
      exact List.mem_singleton.mpr rfl
    · rw [hB', splitLines_append l t, splitLines_of_no_newline l hl]
      exact List.mem_append_left _ (List.mem_singleton.mpr rfl)
  rcases hA with hA' | hA'
  · rw [hA']
    simpa using hright
  · rcases List.getLast?_eq_some_iff.mp hA' with ⟨A1, hA1⟩
    rw [hA1, List.append_assoc, List.singleton_append, splitLines_append]
    exact List.mem_append_right _ hright

lemma mem_extractBundles (keywords : List String) (content : String) (l arg : List Char)
    (ownerOpt : Option (List Char)) (repo : List Char)
    (hline : l ∈ splitLines content.data) (hm : matchBundleLine keywords l = some arg)
    (hs : searchOwnerRepo arg = some (ownerOpt, repo)) :
    ((ownerOpt.getD "vim-scripts".data).asString, repo.asString) ∈
      extractBundlesWithRegex content keywords := by
  rw [extractBundlesWithRegex]
  apply List.mem_filterMap.mpr
  refine ⟨arg, ?_, ?_⟩
  · rw [findallBundles]
    exact List.mem_filterMap.mpr ⟨l, hline, hm⟩
  · rw [hs]

lemma no_newline_append {a b : List Char} (ha : ∀ c ∈ a, c ≠ '\n')
    (hb : ∀ c ∈ b, c ≠ '\n') : ∀ c ∈ a ++ b, c ≠ '\n' := by
  intro c hc
  rcases List.mem_append.mp hc with h | h
  · exact ha c h
  · exact hb c h

lemma no_newline_cons {x : Char} {b : List Char} (hx : x ≠ '\n')
    (hb : ∀ c ∈ b, c ≠ '\n') : ∀ c ∈ x :: b, c ≠ '\n' := by
  intro c hc
  rcases List.mem_cons.mp hc with h | h
  · rw [h]; exact hx
  · exact hb c h

/-- Claim C7: family-A (Vundle) extraction.  For every file content that
contains a line of the form optional non-newline whitespace, `Bundle`,
optional non-newline whitespace, then a single-quoted argument: with
argument `owner/repo` the extraction result includes `(owner, repo)`, and
with argument `repo` (no slash) it includes `(vim-scripts, repo)` — the
missing owner defaults to the fixed fallback namespace.  The hypotheses
say that the owner and repo are made of characters the two regexes accept
and that the repo name does not end in `.git` (which would be stripped). -/
theorem c7_vundle_owner_repo_extraction (A B ws1 ws2 owner repo : String)
    (hw1 : ∀ c ∈ ws1.data, isPySpaceNoNl c = true)
    (hw2 : ∀ c ∈ ws2.data, isPySpaceNoNl c = true)
    (hA : A = "" ∨ A.data.getLast? = some '\n')
    (hB : B = "" ∨ B.data.head? = some '\n')
    (hone : owner.data ≠ [])
    (howner : ∀ c ∈ owner.data, ownerClassOk c = true ∧ bundleArgChar c = true)
    (hrne : repo.data ≠ [])
    (hrclass : ∀ c ∈ repo.data, repoClassOk c = true)
    (hgit : ¬(('.' :: 'g' :: 'i' :: 't' :: []) <:+ repo.data)) :
    (owner, repo) ∈ (extractBundleReposFromFile
      (A ++ ws1 ++ "Bundle" ++ ws2 ++ "\x27" ++ owner ++ "/" ++ repo ++ "\x27" ++ B)).1 ∧
    ("vim-scripts", repo) ∈ (extractBundleReposFromFile
      (A ++ ws1 ++ "Bundle" ++ ws2 ++ "\x27" ++ repo ++ "\x27" ++ B)).1 := by
  have hslash : bundleArgChar '/' = true := rfl
  have hrarg : ∀ c ∈ repo.data, bundleArgChar c = true :=
    fun c hc => repoClassOk_argChar (hrclass c hc)
  have hrnl : ∀ c ∈ repo.data, c ≠ '\n' :=
    fun c hc => repoClassOk_ne_newline (hrclass c hc)
  have hBnl : ∀ c ∈ ("Bundle".data : List Char), c ≠ '\n' := by decide
  have hw1nl : ∀ c ∈ ws1.data, c ≠ '\n' := fun c hc => pyws_ne_newline (hw1 c hc)
  have hw2nl : ∀ c ∈ ws2.data, c ≠ '\n' := fun c hc => pyws_ne_newline (hw2 c hc)
  have hgit' : ∀ s, s <:+ repo.data → s ≠ '.' :: 'g' :: 'i' :: 't' :: [] :=
    fun s hs heq => hgit (heq ▸ hs)
  constructor
  · set argD : List Char := owner.data ++ '/' :: repo.data with hargD
    set lD : List Char :=
      ws1.data ++ ("Bundle".data ++ (ws2.data ++ '\'' :: (argD ++ '\'' :: []))) with hlD
    have hargne : argD ≠ [] := by
      rw [hargD]
      cases owner.data <;> simp
    have hargclass : ∀ c ∈ argD, bundleArgChar c = true := by
      intro c hc
      rw [hargD] at hc
      rcases List.mem_append.mp hc with h | h
      · exact (howner c h).2
      · rcases List.mem_cons.mp h with h' | h'
        · rw [h']; exact hslash
        · exact hrarg c h'
    have hlnl : ∀ c ∈ lD, c ≠ '\n' := by
      rw [hlD]
      refine no_newline_append hw1nl (no_newline_append hBnl
        (no_newline_append hw2nl (no_newline_cons (by decide)
          (no_newline_append (by
            rw [hargD]
            exact no_newline_append (fun c hc => bundleArgChar_ne_newline
              ((howner c hc).2)) (no_newline_cons (by decide) hrnl))
            (no_newline_cons (by decide) (by intro c hc; simp at hc))))))
    have hdata : (A ++ ws1 ++ "Bundle" ++ ws2 ++ "\x27" ++ owner ++ "/" ++ repo ++
        "\x27" ++ B).data = A.data ++ (lD ++ B.data) := by
      rw [hlD, hargD]
      simp [List.append_assoc]
    have hmem : lD ∈ splitLines (A ++ ws1 ++ "Bundle" ++ ws2 ++ "\x27" ++ owner ++
        "/" ++ repo ++ "\x27" ++ B).data := by
      rw [hdata]
      exact mem_splitLines_mid A B lD hA hB hlnl
    have hmatch : matchBundleLine vundleKeywords lD = some argD := by
      rw [hlD, matchBundleLine_vundle ws1.data _ hw1]
      exact matchAfterKeyword_quoted ws2.data '\'' argD '\'' [] hw2 rfl hargne
        hargclass rfl
    have hsearch : searchOwnerRepo argD = some (some owner.data, repo.data) := by
      rw [hargD]
      exact searchOwnerRepo_of_matchAt _ _ (ownerRepoMatchAt_slash owner.data repo.data
        hone (fun c hc => (howner c hc).1) hrne hrclass hgit')
    have hres := mem_extractBundles vundleKeywords _ lD argD (some owner.data)
      repo.data hmem hmatch hsearch
    simp only [Option.getD_some] at hres
    have e1 : (owner.data).asString = owner := rfl
    have e2 : (repo.data).asString = repo := rfl
    rw [e1, e2] at hres
    exact hres
  · set argD : List Char := repo.data with hargD
    set lD : List Char :=
      ws1.data ++ ("Bundle".data ++ (ws2.data ++ '\'' :: (argD ++ '\'' :: []))) with hlD
    have hlnl : ∀ c ∈ lD, c ≠ '\n' := by
      rw [hlD]
      refine no_newline_append hw1nl (no_newline_append hBnl
        (no_newline_append hw2nl (no_newline_cons (by decide)
          (no_newline_append hrnl
            (no_newline_cons (by decide) (by intro c hc; simp at hc))))))
    have hdata : (A ++ ws1 ++ "Bundle" ++ ws2 ++ "\x27" ++ repo ++ "\x27" ++ B).data =
        A.data ++ (lD ++ B.data) := by
      rw [hlD, hargD]
      simp [List.append_assoc]
    have hmem : lD ∈ splitLines (A ++ ws1 ++ "Bundle" ++ ws2 ++ "\x27" ++ repo ++
        "\x27" ++ B).data := by
      rw [hdata]
      exact mem_splitLines_mid A B lD hA hB hlnl
    have hmatch : matchBundleLine vundleKeywords lD = some argD := by
      rw [hlD, matchBundleLine_vundle ws1.data _ hw1]
      exact matchAfterKeyword_quoted ws2.data '\'' argD '\'' [] hw2 rfl
        (hargD ▸ hrne) (hargD ▸ fun c hc => repoClassOk_argChar (hrclass c hc)) rfl
    have hsearch : searchOwnerRepo argD = some (none, repo.data) := by
      rw [hargD]
      exact searchOwnerRepo_of_matchAt _ _
        (ownerRepoMatchAt_noslash repo.data hrne hrclass hgit')
    have hres := mem_extractBundles vundleKeywords _ lD argD none
      repo.data hmem hmatch hsearch
    simp only [Option.getD_none] at hres
    have e2 : (repo.data).asString = repo := rfl
    have e3 : ("vim-scripts".data).asString = "vim-scripts" := rfl
    rw [e2, e3] at hres
    exact hres

/-- Witness for C7: `Bundle \x27gmarik/vundle\x27` yields
`(gmarik, vundle)` and `Bundle \x27taglist\x27` yields
`(vim-scripts, taglist)`. -/
theorem c7_vundle_owner_repo_extraction_witness :
    ("gmarik", "vundle") ∈ (extractBundleReposFromFile
      ("" ++ "" ++ "Bundle" ++ " " ++ "\x27" ++ "gmarik" ++ "/" ++ "vundle" ++
        "\x27" ++ "")).1 ∧
    ("vim-scripts", "vundle") ∈ (extractBundleReposFromFile
      ("" ++ "" ++ "Bundle" ++ " " ++ "\x27" ++ "vundle" ++ "\x27" ++ "")).1 :=
  c7_vundle_owner_repo_extraction "" "" "" " " "gmarik" "vundle"
    (by decide) (by decide) (Or.inl rfl) (Or.inl rfl) (by decide) (by decide)
    (by decide) (by decide) (by decide)

lemma extract_congr_line (keywords : List String) (A B : String) (l₁ l₂ : List Char)
    (hA : A = "" ∨ A.data.getLast? = some '\n') (hB : B = "" ∨ B.data.head? = some '\n')
    (h₁ : ∀ c ∈ l₁, c ≠ '\n') (h₂ : ∀ c ∈ l₂, c ≠ '\n')
    (hm : matchBundleLine keywords l₁ = matchBundleLine keywords l₂) :
    (splitLines (A.data ++ (l₁ ++ B.data))).filterMap (matchBundleLine keywords) =
    (splitLines (A.data ++ (l₂ ++ B.data))).filterMap (matchBundleLine keywords) := by
  have hmid : ∀ l : List Char, (∀ c ∈ l, c ≠ '\n') →
      splitLines (l ++ B.data) = [l] ++ (if B.data = [] then [] else splitLines B.data.tail) := by
    intro l hl
    rcases head_newline_decomp B hB with hB' | ⟨t, hB'⟩
    · rw [hB', List.append_nil, splitLines_of_no_newline l hl, if_pos rfl]
      rfl
    · rw [hB', splitLines_append l t, splitLines_of_no_newline l hl,
        if_neg (fun h => List.noConfusion h)]
      rfl
  rcases hA with hA' | hA'
  · rw [hA']
    rw [show ("" : String).data = [] from rfl]
    simp only [List.nil_append]
    rw [hmid l₁ h₁, hmid l₂ h₂]
    simp [List.filterMap_append, List.filterMap_cons, hm]
  · rcases List.getLast?_eq_some_iff.mp hA' with ⟨A1, hA1⟩
    rw [hA1]
    simp only [List.append_assoc, List.singleton_append]
    rw [splitLines_append, splitLines_append, hmid l₁ h₁, hmid l₂ h₂]
    simp [List.filterMap_append, List.filterMap_cons, hm]

/-- Claim C8: family-B extraction treats the three directive keyword
variants identically.  For any file content containing a directive line
that is whitespace, then the keyword, then any same-line remainder (not
itself beginning with `Fetch` or `Lazy`, which would change the directive
that the line spells), the NeoBundle-family extraction of the content
with keyword `NeoBundle` equals the extraction with keyword
`NeoBundleFetch` and equals the extraction with keyword `NeoBundleLazy`. -/
theorem c8_neobundle_variants_equivalent (A B ws1 rest : String)
    (hw1 : ∀ c ∈ ws1.data, isPySpaceNoNl c = true)
    (hA : A = "" ∨ A.data.getLast? = some '\n')
    (hB : B = "" ∨ B.data.head? = some '\n')
    (hrest : ∀ c ∈ rest.data, c ≠ '\n')
    (hF : ("Fetch".data).isPrefixOf rest.data = false)
    (hL : ("Lazy".data).isPrefixOf rest.data = false) :
    (extractBundleReposFromFile (A ++ ws1 ++ "NeoBundle" ++ rest ++ B)).2 =
      (extractBundleReposFromFile (A ++ ws1 ++ "NeoBundleFetch" ++ rest ++ B)).2 ∧
    (extractBundleReposFromFile (A ++ ws1 ++ "NeoBundle" ++ rest ++ B)).2 =
      (extractBundleReposFromFile (A ++ ws1 ++ "NeoBundleLazy" ++ rest ++ B)).2 := by
  have hw1nl : ∀ c ∈ ws1.data, c ≠ '\n' := fun c hc => pyws_ne_newline (hw1 c hc)
  have hnl : ∀ (kw : String), (∀ c ∈ kw.data, c ≠ '\n') →
      ∀ c ∈ ws1.data ++ (kw.data ++ rest.data), c ≠ '\n' := by
    intro kw hkw
    exact no_newline_append hw1nl (no_newline_append hkw hrest)
  have hdata : ∀ kw : String, (A ++ ws1 ++ kw ++ rest ++ B).data =
      A.data ++ ((ws1.data ++ (kw.data ++ rest.data)) ++ B.data) := by
    intro kw
    simp [List.append_assoc]
  have hm1 := matchBundleLine_neoPlain ws1.data rest.data hw1 hF hL
  have hm2 := matchBundleLine_neoFetch ws1.data rest.data hw1
  have hm3 := matchBundleLine_neoLazy ws1.data rest.data hw1
  have key : ∀ (kw1 kw2 : String), (∀ c ∈ kw1.data, c ≠ '\n') →
      (∀ c ∈ kw2.data, c ≠ '\n') →
      matchBundleLine neoBundleKeywords (ws1.data ++ (kw1.data ++ rest.data)) =
        matchBundleLine neoBundleKeywords (ws1.data ++ (kw2.data ++ rest.data)) →
      (extractBundleReposFromFile (A ++ ws1 ++ kw1 ++ rest ++ B)).2 =
        (extractBundleReposFromFile (A ++ ws1 ++ kw2 ++ rest ++ B)).2 := by
    intro kw1 kw2 hkw1 hkw2 hmm
    show extractBundlesWithRegex _ neoBundleKeywords =
      extractBundlesWithRegex _ neoBundleKeywords
    rw [extractBundlesWithRegex, extractBundlesWithRegex, findallBundles,
      findallBundles, hdata kw1, hdata kw2]
    exact congrArg _ (extract_congr_line neoBundleKeywords A B _ _ hA hB
      (hnl kw1 hkw1) (hnl kw2 hkw2) hmm)
  constructor
  · exact key "NeoBundle" "NeoBundleFetch" (by decide) (by decide)
      (by rw [hm1, hm2])
  · exact key "NeoBundle" "NeoBundleLazy" (by decide) (by decide)
      (by rw [hm1, hm3])

/-- Witness for C8: the three directive variants extract the same result
from a concrete directive line. -/
theorem c8_neobundle_variants_equivalent_witness :
    (extractBundleReposFromFile ("" ++ "" ++ "NeoBundle" ++ " \x27a/b\x27" ++ "")).2 =
      (extractBundleReposFromFile
        ("" ++ "" ++ "NeoBundleFetch" ++ " \x27a/b\x27" ++ "")).2 ∧
    (extractBundleReposFromFile ("" ++ "" ++ "NeoBundle" ++ " \x27a/b\x27" ++ "")).2 =
      (extractBundleReposFromFile
        ("" ++ "" ++ "NeoBundleLazy" ++ " \x27a/b\x27" ++ "")).2 :=
  c8_neobundle_variants_equivalent "" "" "" " \x27a/b\x27"
    (by decide) (Or.inl rfl) (Or.inl rfl) (by decide) (by decide) (by decide)

end GithubScraper
